import Mathlib

/-!
Verification development for the `repro-threshold` repository.

The definitions below are a shallow embedding of the Rust sources:

* `src/withhold.rs`  — the withhold-commit streaming buffer (`Writer`, `Reader`)
* `src/attestation.rs` — the attestation tree and its `verify`
* `src/signing.rs`   — `DomainTree::group_by_domain`
* `src/transport/apt.rs` — the APT method protocol speaker
* `src/main.rs`      — multicall dispatch

Bytes are modelled as `Nat`, byte buffers as `List Nat`, Rust `String`s as
`List Char`.  The external SHA-256 primitive (the `sha2` crate) is modelled by
keeping the exact list of bytes absorbed into the hasher and applying an
arbitrary digest function `H` at `finalize` time; the external in-toto
signature check is modelled as an abstract boolean field of an attestation.
-/

namespace ReproThreshold

/-! ## The underlying file handle

`tokio::fs::File` (or the `Cursor` used in the repository's tests): a byte
sequence together with a read/write position.  Writes overwrite in place at
the position, reads return up to `n` bytes from the position; both advance it.
-/

structure FileCursor where
  data : List Nat
  pos : Nat

/-- A positional write: overwrite `chunk.length` bytes at `pos`, advance `pos`. -/
def FileCursor.write_chunk (c : FileCursor) (chunk : List Nat) : FileCursor :=
  { data := c.data.take c.pos ++ chunk ++ c.data.drop (c.pos + chunk.length),
    pos := c.pos + chunk.length }

/-- `stream_position()`. -/
def FileCursor.stream_position (c : FileCursor) : Nat := c.pos

/-- `rewind()`: seek to the start. -/
def FileCursor.rewind (c : FileCursor) : FileCursor := { c with pos := 0 }

/-- `seek(SeekFrom::Start(p))`. -/
def FileCursor.seek_to (c : FileCursor) (p : Nat) : FileCursor := { c with pos := p }

/-- A positional read of at most `n` bytes, advancing the position. -/
def FileCursor.read_chunk (c : FileCursor) (n : Nat) : FileCursor × List Nat :=
  let bytes := (c.data.drop c.pos).take n
  ({ c with pos := c.pos + bytes.length }, bytes)

/-! ## `src/withhold.rs` — the withhold-commit buffer -/

/-- `withhold::Writer<W>`.  The field `sha256acc` models the `Sha256` hasher
state as the exact sequence of bytes absorbed by `Digest::update` so far. -/
structure Writer (W : Type) where
  inner : W
  withheld : Option (List Nat)
  size : Nat
  sha256acc : List Nat

/-- `Writer::new(inner)`. -/
def Writer.new (inner : FileCursor) : Writer FileCursor :=
  { inner, withheld := none, size := 0, sha256acc := [] }

/-- `Writer::apply(&mut self, chunk)`: write the chunk to the sink, bump the
size counter and absorb the chunk into the hasher. -/
def Writer.apply (w : Writer FileCursor) (chunk : List Nat) : Writer FileCursor :=
  { w with
    inner := w.inner.write_chunk chunk
    size := w.size + chunk.length
    sha256acc := w.sha256acc ++ chunk }

/-- `Writer::write_all(&mut self, chunk)`: place `chunk` into the withheld
slot; if the slot previously held a chunk, `apply` that old chunk. -/
def Writer.write_all (w : Writer FileCursor) (chunk : List Nat) : Writer FileCursor :=
  match w.withheld with
  | some old => Writer.apply { w with withheld := some chunk } old
  | none => { w with withheld := some chunk }

/-- `Writer::size(&self)`: bytes applied to the sink plus the withheld chunk. -/
def Writer.size_total {W : Type} (w : Writer W) : Nat :=
  match w.withheld with
  | some chunk => w.size + chunk.length
  | none => w.size

/-- `Writer::sha256(&self)`: clone the hasher, absorb the withheld chunk if
present, and finalize.  The external digest function is the parameter `H`. -/
def Writer.sha256_digest {W : Type} (H : List Nat → List Nat) (w : Writer W) : List Nat :=
  match w.withheld with
  | some chunk => H (w.sha256acc ++ chunk)
  | none => H w.sha256acc

/-- The bytes the `Sha256` hasher would be finalized over: absorbed bytes
followed by the withheld chunk (the digest preimage of `Writer::sha256`). -/
def Writer.sha256_preimage {W : Type} (w : Writer W) : List Nat :=
  match w.withheld with
  | some chunk => w.sha256acc ++ chunk
  | none => w.sha256acc

/-- `Writer::finalize(&mut self)`: take the withheld chunk (if any) and apply
it; then flush the sink (a no-op in the model). -/
def Writer.finalize (w : Writer FileCursor) : Writer FileCursor :=
  match w.withheld with
  | some chunk => Writer.apply { w with withheld := none } chunk
  | none => w

/-- A finite sequence of `write_all` calls. -/
def Writer.write_list (w : Writer FileCursor) (chunks : List (List Nat)) : Writer FileCursor :=
  chunks.foldl Writer.write_all w

/-- `withhold::Reader<R>` (the `writer : Writer<()>` sub-state keeps the
withheld chunk, size and hasher across the reader round trip). -/
structure Reader where
  inner : FileCursor
  cursor : Nat
  old_position : Nat
  writer : Writer Unit

/-- `Writer::into_reader(self)`: remember the current stream position, rewind
the file and enter reader mode. -/
def Writer.into_reader (w : Writer FileCursor) : Reader :=
  { inner := w.inner.rewind
    cursor := 0
    old_position := w.inner.stream_position
    writer := { inner := (), withheld := w.withheld, size := w.size, sha256acc := w.sha256acc } }

/-- `Reader::peek_withheld(&self, limit)`. -/
def Reader.peek_withheld (r : Reader) (limit : Nat) : Option (List Nat) :=
  if r.cursor < r.old_position then none
  else
    match r.writer.withheld with
    | none => none
    | some withheld =>
      let cursor := r.cursor - r.old_position
      if withheld.length < cursor then none
      else some ((withheld.drop cursor).take limit)

/-- One `poll_read` with a buffer of capacity `n`: past `old_position` the
withheld chunk is served, before it the read is delegated to the inner file. -/
def Reader.poll_read (r : Reader) (n : Nat) : Reader × List Nat :=
  if r.old_position ≤ r.cursor then
    match r.peek_withheld n with
    | some slice => ({ r with cursor := r.cursor + slice.length }, slice)
    | none => (r, [])
  else
    let step := r.inner.read_chunk n
    ({ r with inner := step.1, cursor := r.cursor + step.2.length }, step.2)

/-- `read_to_end`: repeated `poll_read` with buffers of capacity `n` until a
read returns no bytes.  `fuel` bounds the number of loop iterations. -/
def Reader.read_to_end (n : Nat) : Nat → Reader → List Nat
  | 0, _ => []
  | fuel + 1, r =>
    let step := r.poll_read n
    if step.2.isEmpty then []
    else step.2 ++ Reader.read_to_end n fuel step.1

/-- `Reader::into_writer(self)`: seek the file back to `old_position` and
reconstruct the writer with the preserved withheld chunk, size and hasher. -/
def Reader.into_writer (r : Reader) : Writer FileCursor :=
  { inner := r.inner.seek_to r.old_position
    withheld := r.writer.withheld
    size := r.writer.size
    sha256acc := r.writer.sha256acc }

/-- The withheld chunk as a plain list (empty when nothing is withheld). -/
def withheldD {W : Type} (w : Writer W) : List Nat := w.withheld.getD []

/-- Logical content of the buffer: bytes on the sink followed by the withheld
tail. -/
def Writer.content (w : Writer FileCursor) : List Nat := w.inner.data ++ withheldD w

/-- Well-formedness of a writer built by streaming into a fresh file: the file
position sits at the end of the data, and the hasher has absorbed exactly the
bytes on the sink. -/
def Writer.Good (w : Writer FileCursor) : Prop :=
  w.inner.pos = w.inner.data.length ∧ w.sha256acc = w.inner.data ∧ w.size = w.inner.data.length

/-- Logical bytes remaining to be served by the reader: the rest of the
committed prefix, then the rest of the withheld tail. -/
def Reader.remaining (r : Reader) : List Nat :=
  r.inner.data.drop r.cursor ++ (withheldD r.writer).drop (r.cursor - r.old_position)

/-- Well-formedness of a reader obtained from `into_reader`: the committed
prefix is exactly `old_position` bytes, and the file position tracks the
logical cursor up to the commit point. -/
def Reader.Proper (r : Reader) : Prop :=
  r.inner.data.length = r.old_position ∧ r.inner.pos = min r.cursor r.old_position

/-! ## `src/attestation.rs` — attestations and the attestation tree -/

abbrev KeyId := Nat

/-- `in_toto::crypto::PublicKey`, reduced to its content-addressed key-id. -/
structure PublicKey where
  key_id : KeyId

inductive HashAlgorithm where
  | sha256
  | other
deriving DecidableEq

/-- `attestation::Attestation` (an in-toto metablock). -/
structure Attestation where
  /-- whether the metablock's metadata is an in-toto Link -/
  is_link : Bool
  /-- the Link's products section: for each product, its algorithm→digest map -/
  products : List (List (HashAlgorithm × List Nat))
  /-- abstract outcome of the external in-toto signature verification: whether
  the envelope verifies under the given public key after retaining only the
  signatures whose key-id matches it (`Metablock::verify(1, [key])`) -/
  sig_ok : PublicKey → Bool

/-- the SHA-256 entry of one product's algorithm→digest map (`hashes.get(&HashAlgorithm::Sha256)`). -/
def hashesSha256 (hashes : List (HashAlgorithm × List Nat)) : Option (List Nat) :=
  (hashes.find? (fun p => p.1 == HashAlgorithm.sha256)).map Prod.snd

/-- `Attestation::verify_sha256(sha256, public_key)`: the metadata must be a
Link, the signature must verify under the key, and some product must record a
SHA-256 digest equal to the candidate hash. -/
def Attestation.verify_sha256 (a : Attestation) (sha256 : List Nat)
    (public_key : PublicKey) : Bool :=
  a.is_link && a.sig_ok public_key &&
    a.products.any (fun hashes =>
      match hashesSha256 hashes with
      | some expected => expected == sha256
      | none => false)

/-- `attestation::Tree`: `BTreeMap<KeyId, Vec<Arc<(String, Attestation)>>>`,
modelled by its lookup function; an absent key gives the empty sequence. -/
structure Tree where
  map : KeyId → List (List Char × Attestation)

/-- `BTreeSet::insert` for the confirm set (no duplicates). -/
def setInsert (l : List KeyId) (k : KeyId) : List KeyId :=
  if k ∈ l then l else l ++ [k]

/-- `Tree::verify(sha256, signing_keys)`: for each trusted key, if any stored
attestation under its key-id passes `verify_sha256`, the key-id joins the
confirm set (one vote per key; the source breaks after the first success). -/
def Tree.verify (t : Tree) (sha256 : List Nat) (signing_keys : List PublicKey) : List KeyId :=
  signing_keys.foldl
    (fun confirms signing_key =>
      if (t.map signing_key.key_id).any
          (fun entry => entry.2.verify_sha256 sha256 signing_key)
      then setInsert confirms signing_key.key_id
      else confirms)
    []

/-! ## `src/signing.rs` — `DomainTree` -/

abbrev Host := Nat

/-- `DomainTree`: `BTreeMap<KeyId, (Host, PublicKey)>`, modelled by its lookup
function. -/
structure DomainTree where
  map : KeyId → Option (Host × PublicKey)

/-- The loop of `group_by_domain`: iterate the confirm set (a `BTreeSet`
iterates in sorted key-id order), skip key-ids without a map entry, and keep a
key-id iff its host was not voted before (`voted.insert(host)`). -/
def groupGo (t : DomainTree) : List Host → List KeyId → List KeyId
  | _, [] => []
  | voted, key_id :: rest =>
    match t.map key_id with
    | none => groupGo t voted rest
    | some entry =>
      if entry.1 ∈ voted then groupGo t voted rest
      else key_id :: groupGo t (entry.1 :: voted) rest

/-- `DomainTree::group_by_domain(confirms)`. -/
def DomainTree.group_by_domain (t : DomainTree) (confirms : List KeyId) : List KeyId :=
  groupGo t [] confirms

/-- the host a key-id resolves to, if any. -/
def DomainTree.hostOf (t : DomainTree) (k : KeyId) : Option Host :=
  (t.map k).map Prod.fst

/-! ## `src/transport/apt.rs` — the APT protocol speaker -/

/-- `str::split_once('\n')`. -/
def split_once_nl : List Char → Option (List Char × List Char)
  | [] => none
  | c :: rest =>
    if c = '\n' then some ([], rest)
    else
      match split_once_nl rest with
      | some p => some (c :: p.1, p.2)
      | none => none

/-- `truncate_newline(s)`: the text up to the first newline. -/
def truncate_newline (s : List Char) : List Char :=
  match split_once_nl s with
  | some p => p.1
  | none => s

/-- a lower-case hex digit (`data_encoding::HEXLOWER` alphabet). -/
def hexDigit (n : Nat) : Char :=
  if n < 10 then Char.ofNat (48 + n) else Char.ofNat (87 + n)

/-- `HEXLOWER.encode`: two hex digits per byte (bytes taken mod 256). -/
def hexlower (bytes : List Nat) : List Char :=
  bytes.flatMap (fun b => [hexDigit (b % 256 / 16), hexDigit (b % 16)])

/-- a decimal digit character. -/
def digitChar (n : Nat) : Char := Char.ofNat (48 + n % 10)

/-- decimal rendering of an unsigned integer (`Display` for `u64`). -/
def natChars (n : Nat) : List Char :=
  if _h : n < 10 then [digitChar n]
  else natChars (n / 10) ++ [digitChar (n % 10)]
decreasing_by
  exact Nat.div_lt_self (by omega) (by omega)

/-- `uri_failure(uri, message)`: the emitted lines (one `println!` per line,
without the terminating newline; the final empty line ends the block). -/
def uri_failure (uri : Option (List Char)) (message : List Char) : List (List Char) :=
  ["400 URI Failure".toList,
   "Message: ".toList ++ truncate_newline message]
  ++ (match uri with
      | some u => ["URI: ".toList ++ truncate_newline u]
      | none => [])
  ++ [[]]

/-- `send_status(uri, message)`. -/
def send_status (uri message : List Char) : List (List Char) :=
  ["102 Status".toList,
   "Message: ".toList ++ truncate_newline message,
   "URI: ".toList ++ truncate_newline uri,
   []]

/-- the `200 URI Start` block emitted inside `acquire`. -/
def uri_start (uri : List Char) (last_modified : Option (List Char)) : List (List Char) :=
  ["200 URI Start".toList]
  ++ (match last_modified with
      | some lm => ["Last-Modified: ".toList ++ truncate_newline lm]
      | none => [])
  ++ ["URI: ".toList ++ truncate_newline uri, []]

/-- the `201 URI Done` block emitted inside `acquire`. -/
def uri_done (sha256 : List Nat) (last_modified : Option (List Char)) (size : Nat)
    (filename uri : List Char) : List (List Char) :=
  ["201 URI Done".toList,
   "SHA256-Hash: ".toList ++ hexlower sha256]
  ++ (match last_modified with
      | some lm => ["Last-Modified: ".toList ++ truncate_newline lm]
      | none => [])
  ++ ["Size: ".toList ++ natChars size,
      "Filename: ".toList ++ truncate_newline filename,
      "URI: ".toList ++ truncate_newline uri,
      []]

/-- an inbound APT message: status line plus headers (`Request`). -/
structure Request where
  status : List Char
  headers : List (List Char × List Char)

/-- header lookup (`req.headers.get(key)`). -/
def Request.header (req : Request) (key : List Char) : Option (List Char) :=
  (req.headers.find? (fun p => p.1 == key)).map Prod.snd

/-- `Request::needs_verification`: `deb` or absent ⇒ true; `index` ⇒ false;
any other value ⇒ false. -/
def Request.needs_verification (req : Request) : Bool :=
  match req.header "Target-Type".toList with
  | some v =>
    if v = "deb".toList then true
    else if v = "index".toList then false
    else false
  | none => true

/-- the configuration fields the transport consults. -/
structure Config where
  required_threshold : Nat

/-- The verification-and-commit phase of `acquire` (apt.rs lines 119-158),
picking up once the HTTP body has been streamed into `file`: `attestations`
is the tree fetched from the trusted rebuilders, `sha256` the digest of the
body.  In the source the `signing_keys` vector is empty (marked `TODO`).
Committing finalizes the writer; a bail returns `none` (the caller then emits
`400 URI Failure` and the file is never finalized). -/
def acquire_verify_commit (config : Config) (req : Request) (attestations : Tree)
    (file : Writer FileCursor) (sha256 : List Nat) : Option (Writer FileCursor) :=
  if req.needs_verification then
    let signing_keys : List PublicKey := []
    let confirms := attestations.verify sha256 signing_keys
    if confirms.length < config.required_threshold then none
    else some file.finalize
  else some file.finalize

/-- Modelled from the spec: §4.3 step 5 and §4.2 "Threshold verdict" — the
confirm set is computed by `AttestationTree.verify` against the caller-supplied
trusted public keys, reduced with `DomainTree::group_by_domain`, and the
transfer commits iff the grouped confirm count reaches `required_threshold`.
This is the behaviour the source's `TODO` placeholder leaves unimplemented. -/
def spec_verify_commit (config : Config) (trusted : DomainTree)
    (trusted_keys : List PublicKey) (req : Request) (attestations : Tree)
    (file : Writer FileCursor) (sha256 : List Nat) : Option (Writer FileCursor) :=
  if req.needs_verification then
    let confirms := attestations.verify sha256 trusted_keys
    let grouped := trusted.group_by_domain confirms
    if grouped.length < config.required_threshold then none
    else some file.finalize
  else some file.finalize

/-- One iteration of `run`'s dispatch on an inbound message; `acq` abstracts
the whole `600 URI Acquire` path (including its error reporting). -/
def handle (acq : Request → List (List Char)) (req : Request) : List (List Char) :=
  if "600 ".toList.isPrefixOf req.status then acq req
  else if "601 ".toList.isPrefixOf req.status then []
  else uri_failure none ("Unsupported command: ".toList ++ req.status)

/-- `run`'s request loop over a finite inbound message sequence. -/
def run_loop (acq : Request → List (List Char)) : List Request → List (List Char)
  | [] => []
  | req :: rest => handle acq req ++ run_loop acq rest

/-! ## `src/main.rs` — multicall dispatch -/

/-- `bin.rsplit('/').next()`: the part of `argv[0]` after the last `/`. -/
def basename (s : List Char) : List Char :=
  (s.reverse.takeWhile (fun c => c ≠ '/')).reverse

/-- `is_apt_transport_multicall()`. -/
def is_apt_transport_multicall (argv0 : Option (List Char)) : Bool :=
  match argv0 with
  | none => false
  | some bin => "reproduced+".toList.isPrefixOf (basename bin)

/-- the subcommand clap parsed from the remaining arguments. -/
inductive SubCommand where
  | transportAlpm
  | transportApt
  | plumbing
deriving DecidableEq

/-- where `main` hands control. -/
inductive Dispatch where
  | aptTransport
  | alpmTransport
  | tui
  | plumbingCmd
deriving DecidableEq

/-- the dispatch in `main` (src/main.rs lines 50-62), followed through
`transport::run`. -/
def mainDispatch (argv0 : Option (List Char)) (sub : Option SubCommand) : Dispatch :=
  match sub with
  | none =>
    if is_apt_transport_multicall argv0 then Dispatch.aptTransport else Dispatch.tui
  | some SubCommand.transportApt => Dispatch.aptTransport
  | some SubCommand.transportAlpm => Dispatch.alpmTransport
  | some SubCommand.plumbing => Dispatch.plumbingCmd

/-! ## Concrete sample data used to instantiate theorems -/

/-- a concrete attestation: an in-toto Link signed by key-id 1, recording the
SHA-256 digest `[5]` for its single product. -/
def sampleAttestation : Attestation :=
  { is_link := true
    products := [[(HashAlgorithm.sha256, [5])]]
    sig_ok := fun pk => pk.key_id == 1 }

/-- a tree holding `sampleAttestation` under key-id 1. -/
def sampleTree : Tree :=
  { map := fun kid => if kid = 1 then [("a.link".toList, sampleAttestation)] else [] }

/-- the trusted public key with key-id 1. -/
def sampleKey : PublicKey := { key_id := 1 }

/-- a domain tree mapping key-id 1 to host 7. -/
def sampleDomainTree : DomainTree :=
  { map := fun kid => if kid = 1 then some (7, sampleKey) else none }

theorem Writer.good_new : (Writer.new { data := [], pos := 0 }).Good := by
  refine ⟨rfl, rfl, rfl⟩

theorem FileCursor.write_chunk_append (c : FileCursor) (chunk : List Nat)
    (h : c.pos = c.data.length) :
    c.write_chunk chunk = { data := c.data ++ chunk, pos := c.data.length + chunk.length } := by
  simp [FileCursor.write_chunk, h, List.take_length, List.drop_eq_nil_of_le]

theorem Writer.good_apply (w : Writer FileCursor) (chunk : List Nat) (h : w.Good) :
    (w.apply chunk).Good ∧ (w.apply chunk).inner.data = w.inner.data ++ chunk ∧
      (w.apply chunk).withheld = w.withheld := by
  obtain ⟨h1, h2, h3⟩ := h
  simp [Writer.apply, FileCursor.write_chunk_append _ _ h1, Writer.Good, h2, h3]

theorem Writer.good_write_all (w : Writer FileCursor) (chunk : List Nat) (h : w.Good) :
    (w.write_all chunk).Good ∧ (w.write_all chunk).content = w.content ++ chunk ∧
      (w.write_all chunk).withheld = some chunk := by
  obtain ⟨h1, h2, h3⟩ := h
  cases hw : w.withheld with
  | none =>
    have heq : w.write_all chunk = { w with withheld := some chunk } := by
      simp [Writer.write_all, hw]
    rw [heq]
    exact ⟨⟨h1, h2, h3⟩, by simp [Writer.content, withheldD, hw], rfl⟩
  | some old =>
    have happ := Writer.good_apply { w with withheld := some chunk } old ⟨h1, h2, h3⟩
    have heq : w.write_all chunk = Writer.apply { w with withheld := some chunk } old := by
      simp [Writer.write_all, hw]
    rw [heq]
    refine ⟨happ.1, ?_, happ.2.2⟩
    rw [Writer.content, happ.2.1]
    simp [Writer.content, withheldD, happ.2.2, hw]

theorem Writer.good_write_list (w : Writer FileCursor) (chunks : List (List Nat)) (h : w.Good) :
    (w.write_list chunks).Good ∧
      (w.write_list chunks).content = w.content ++ chunks.flatten := by
  induction chunks generalizing w with
  | nil =>
    refine ⟨?_, ?_⟩
    · simpa [Writer.write_list] using h
    · simp [Writer.write_list]
  | cons c cs ih =>
    have hstep := Writer.good_write_all w c h
    have hrest := ih (w.write_all c) hstep.1
    refine ⟨?_, ?_⟩
    · simpa [Writer.write_list] using hrest.1
    · have : (w.write_all c).write_list cs = w.write_list (c :: cs) := by
        simp [Writer.write_list]
      rw [← this, hrest.2, hstep.2.1]
      simp

theorem Writer.withheld_write_list (w : Writer FileCursor) (chunks : List (List Nat))
    (h : chunks ≠ []) : (w.write_list chunks).withheld = chunks.getLast? := by
  induction chunks generalizing w with
  | nil => simp at h
  | cons c cs ih =>
    cases hcs : cs with
    | nil =>
      have hall : (w.write_all c).withheld = some c := by
        cases hw : w.withheld <;> simp [Writer.write_all, hw, Writer.apply]
      simpa [Writer.write_list, hcs] using hall
    | cons d ds =>
      have := ih (w.write_all c) (by simp [hcs])
      simpa [Writer.write_list, hcs] using this

theorem Writer.sha256_digest_eq_preimage {W : Type} (H : List Nat → List Nat) (w : Writer W) :
    Writer.sha256_digest H w = H w.sha256_preimage := by
  cases hw : w.withheld <;> simp [Writer.sha256_digest, Writer.sha256_preimage, hw]

theorem Writer.preimage_eq_content (w : Writer FileCursor) (h : w.Good) :
    w.sha256_preimage = w.content := by
  cases hw : w.withheld <;>
    simp [Writer.sha256_preimage, Writer.content, withheldD, hw, h.2.1]

theorem Writer.finalize_preimage (w : Writer FileCursor) :
    w.finalize.sha256_preimage = w.sha256_preimage := by
  cases hw : w.withheld <;>
    simp [Writer.finalize, hw, Writer.sha256_preimage, Writer.apply]

theorem Writer.good_finalize (w : Writer FileCursor) (h : w.Good) :
    w.finalize.Good ∧ w.finalize.inner.data = w.content ∧ w.finalize.withheld = none := by
  cases hw : w.withheld with
  | none =>
    have heq : w.finalize = w := by simp [Writer.finalize, hw]
    rw [heq]
    exact ⟨h, by simp [Writer.content, withheldD, hw], hw⟩
  | some c =>
    have heq : w.finalize = Writer.apply { w with withheld := none } c := by
      simp [Writer.finalize, hw]
    have happ := Writer.good_apply { w with withheld := none } c h
    rw [heq]
    refine ⟨happ.1, ?_, happ.2.2⟩
    rw [happ.2.1]
    simp [Writer.content, withheldD, hw]

/-- C2 instantiated state: a fresh buffer over an empty file. -/
theorem Writer.content_write_list_new (ws : List (List Nat)) :
    ((Writer.new { data := [], pos := 0 }).write_list ws).Good ∧
      ((Writer.new { data := [], pos := 0 }).write_list ws).content = ws.flatten := by
  have h := Writer.good_write_list (Writer.new { data := [], pos := 0 }) ws Writer.good_new
  refine ⟨h.1, ?_⟩
  rw [h.2]
  simp [Writer.new, Writer.content, withheldD]

/-- **C2.** For every finite sequence of `write_all` calls on a fresh
WithholdBuffer `Writer` followed by `finalize`, `sha256()` returns the digest
(the external digest function `H` applied) of the concatenation of all input
chunks; and the digest is the same whether `sha256()` is consulted before or
after `finalize` — `sha256()` itself never mutates the writer (it is a pure
observation in this embedding, `Writer.sha256_digest`). -/
theorem c2_hash_equivalence (H : List Nat → List Nat) (ws : List (List Nat)) :
    Writer.sha256_digest H (((Writer.new { data := [], pos := 0 }).write_list ws).finalize)
        = H ws.flatten ∧
      Writer.sha256_digest H ((Writer.new { data := [], pos := 0 }).write_list ws)
        = H ws.flatten := by
  have h := Writer.content_write_list_new ws
  have hpre : ((Writer.new { data := [], pos := 0 }).write_list ws).sha256_preimage
      = ws.flatten := by
    rw [Writer.preimage_eq_content _ h.1, h.2]
  constructor
  · rw [Writer.sha256_digest_eq_preimage, Writer.finalize_preimage, hpre]
  · rw [Writer.sha256_digest_eq_preimage, hpre]

/-- **C6 counterexample.** After a single `write_all` of an *empty* chunk the
chunk is withheld (we are before `finalize`, after at least one `write_all`),
yet the on-disk length equals — is not strictly below — the total number of
bytes the caller passed in. -/
theorem c6_counterexample :
    (((Writer.new { data := [], pos := 0 }).write_list [[]]).withheld.isSome = true) ∧
      ¬ ((Writer.new { data := [], pos := 0 }).write_list [[]]).inner.data.length
          < ([([] : List Nat)].flatten).length := by
  constructor
  · rfl
  · decide

/-- **C6 (amended).** The on-disk length never exceeds the total bytes passed
to `write_all`; and it is *strictly* below the total whenever the withheld
chunk is nonempty (the original strict claim fails when the withheld chunk is
the empty chunk, see the counterexample). -/
theorem c6_amended (ws : List (List Nat)) :
    ((Writer.new { data := [], pos := 0 }).write_list ws).inner.data.length
        ≤ ws.flatten.length ∧
      ∀ c, ((Writer.new { data := [], pos := 0 }).write_list ws).withheld = some c →
        c ≠ [] →
        ((Writer.new { data := [], pos := 0 }).write_list ws).inner.data.length
          < ws.flatten.length := by
  have h := Writer.content_write_list_new ws
  have hlen : ((Writer.new { data := [], pos := 0 }).write_list ws).inner.data.length
      + (withheldD ((Writer.new { data := [], pos := 0 }).write_list ws)).length
      = ws.flatten.length := by
    have := congrArg List.length h.2
    simpa [Writer.content] using this
  constructor
  · omega
  · intro c hc hne
    have hwd : (withheldD ((Writer.new { data := [], pos := 0 }).write_list ws)).length
        = c.length := by simp [withheldD, hc]
    have : 0 < c.length := List.length_pos.mpr hne
    omega

theorem c6_amended_witness :
    ((Writer.new { data := [], pos := 0 }).write_list [[1]]).inner.data.length
      < [[1]].flatten.length :=
  (c6_amended [[1]]).2 [1] (by decide) (by decide)

theorem take_append_drop_take {α : Type} (x : List α) (n : Nat) :
    x.take n ++ x.drop ((x.take n).length) = x := by
  induction x generalizing n with
  | nil => simp
  | cons a l ih =>
    cases n with
    | zero => simp
    | succ m => simpa using ih m

/-- One `poll_read` step: it preserves properness, peels the returned bytes
off the logical remaining content and, with a nonempty buffer, returns no
bytes only at end of file. -/
theorem Reader.poll_read_spec (r : Reader) (n : Nat) (hn : 1 ≤ n) (hp : r.Proper) :
    (r.poll_read n).1.Proper ∧
      r.remaining = (r.poll_read n).2 ++ (r.poll_read n).1.remaining ∧
      ((r.poll_read n).2 = [] → r.remaining = []) := by
  obtain ⟨hlen, hpos⟩ := hp
  by_cases hc : r.old_position ≤ r.cursor
  · -- the committed prefix is exhausted; serve (the rest of) the withheld chunk
    have hdrop : r.inner.data.drop r.cursor = [] :=
      List.drop_eq_nil_of_le (by omega)
    cases hwh : r.writer.withheld with
    | none =>
      have hpeek : r.peek_withheld n = none := by
        simp [Reader.peek_withheld, hwh, Nat.not_lt.mpr hc]
      have hpr : r.poll_read n = (r, []) := by
        simp [Reader.poll_read, hc, hpeek]
      rw [hpr]
      simp [Reader.remaining, hdrop, withheldD, hwh]
      exact ⟨hlen, hpos⟩
    | some wh =>
      by_cases hover : wh.length < r.cursor - r.old_position
      · have hpeek : r.peek_withheld n = none := by
          simp [Reader.peek_withheld, hwh, Nat.not_lt.mpr hc, hover]
        have hpr : r.poll_read n = (r, []) := by
          simp [Reader.poll_read, hc, hpeek]
        rw [hpr]
        have hrem : r.remaining = [] := by
          simp [Reader.remaining, hdrop, withheldD, hwh,
            List.drop_eq_nil_of_le (le_of_lt hover)]
        simp [hrem]
        exact ⟨hlen, hpos⟩
      · set slice := ((wh.drop (r.cursor - r.old_position)).take n) with hslice
        have hpeek : r.peek_withheld n = some slice := by
          simp [Reader.peek_withheld, hwh, Nat.not_lt.mpr hc, hover]
        have hpr : r.poll_read n
            = ({ r with cursor := r.cursor + slice.length }, slice) := by
          simp [Reader.poll_read, hc, hpeek]
        rw [hpr]
        refine ⟨⟨hlen, ?_⟩, ?_, ?_⟩
        · simp only []
          omega
        · have hx := take_append_drop_take (wh.drop (r.cursor - r.old_position)) n
          simp only [Reader.remaining, hdrop, withheldD, hwh, Option.getD_some,
            List.nil_append]
          have hdrop2 : r.inner.data.drop (r.cursor + slice.length) = [] :=
            List.drop_eq_nil_of_le (by omega)
          rw [hdrop2, List.nil_append]
          have hsub : r.cursor + slice.length - r.old_position
              = (r.cursor - r.old_position) + slice.length := by omega
          rw [hsub, ← List.drop_drop]
          exact hx.symm
        · intro hempty
          have hwhdrop : wh.drop (r.cursor - r.old_position) = [] := by
            rcases List.take_eq_nil_iff.mp (hslice ▸ hempty) with h | h
            · omega
            · exact h
          simp [Reader.remaining, hdrop, withheldD, hwh, hwhdrop]
  · -- still inside the committed prefix: delegate to the file
    push_neg at hc
    have hposc : r.inner.pos = r.cursor := by omega
    have hsub0 : r.cursor - r.old_position = 0 := by omega
    set bytes := ((r.inner.data.drop r.cursor).take n) with hbytes
    have hbne : bytes ≠ [] := by
      rw [hbytes]
      intro hnil
      rcases List.take_eq_nil_iff.mp hnil with h | h
      · omega
      · have := List.drop_eq_nil_iff.mp h
        omega
    have hblen : bytes.length ≤ r.inner.data.length - r.cursor := by
      rw [hbytes]
      simp [List.length_take, List.length_drop]
    have hpr : r.poll_read n
        = ({ r with
              inner := { data := r.inner.data, pos := r.cursor + bytes.length }
              cursor := r.cursor + bytes.length }, bytes) := by
      simp [Reader.poll_read, Nat.not_le.mpr hc, FileCursor.read_chunk, hposc, hbytes]
    rw [hpr]
    refine ⟨⟨hlen, ?_⟩, ?_, fun hemp => absurd hemp hbne⟩
    · simp only []
      omega
    · have hx := take_append_drop_take (r.inner.data.drop r.cursor) n
      have hsub1 : r.cursor + bytes.length - r.old_position = 0 := by omega
      simp only [Reader.remaining, hsub0, hsub1]
      rw [← List.append_assoc]
      congr 1
      rw [← List.drop_drop]
      exact hx.symm

/-- `read_to_end` drains exactly the remaining logical content once the fuel
exceeds its length. -/
theorem Reader.read_to_end_spec (n : Nat) (hn : 1 ≤ n) :
    ∀ fuel (r : Reader), r.Proper → r.remaining.length < fuel →
      Reader.read_to_end n fuel r = r.remaining := by
  intro fuel
  induction fuel with
  | zero => intro r _ habs; omega
  | succ fuel ih =>
    intro r hp hlen
    have hs := Reader.poll_read_spec r n hn hp
    by_cases hb : (r.poll_read n).2 = []
    · have h0 := hs.2.2 hb
      simp [Reader.read_to_end, hb, h0]
    · have hstep : Reader.read_to_end n (fuel + 1) r
          = (r.poll_read n).2 ++ Reader.read_to_end n fuel (r.poll_read n).1 := by
        simp [Reader.read_to_end, List.isEmpty_iff, hb]
      have hlens := congrArg List.length hs.2.1
      rw [List.length_append] at hlens
      have hbpos : 0 < (r.poll_read n).2.length := List.length_pos.mpr hb
      rw [hstep, ih (r.poll_read n).1 hs.1 (by omega)]
      exact hs.2.1.symm

theorem Writer.into_reader_proper (w : Writer FileCursor) (h : w.Good) :
    w.into_reader.Proper ∧ w.into_reader.remaining = w.content := by
  obtain ⟨h1, _h2, _h3⟩ := h
  refine ⟨⟨?_, ?_⟩, ?_⟩
  · simp [Writer.into_reader, FileCursor.rewind, FileCursor.stream_position, h1]
  · simp [Writer.into_reader, FileCursor.rewind]
  · simp [Writer.into_reader, Reader.remaining, FileCursor.rewind, Writer.content,
      FileCursor.stream_position, withheldD]

theorem Writer.into_reader_into_writer (w : Writer FileCursor) (h : w.Good) :
    w.into_reader.into_writer = w := by
  obtain ⟨⟨data, pos⟩, wh, sz, acc⟩ := w
  obtain ⟨h1, -, -⟩ := h
  simp only at h1
  simp [Writer.into_reader, Reader.into_writer, FileCursor.rewind,
    FileCursor.seek_to, FileCursor.stream_position, h1]

/-- **C5.** For every write sequence on a fresh buffer: converting the writer
with `into_reader` and reading to end yields exactly the concatenation of all
`write_all` inputs (committed prefix followed by the withheld tail); the round
trip `into_reader().into_writer()` reconstructs the writer exactly (same
withheld chunk, same size, same running SHA-256 state); and a subsequent
`finalize` leaves the file byte-identical to the concatenated input. -/
theorem c5_round_trip (ws : List (List Nat)) (n fuel : Nat) (hn : 1 ≤ n)
    (hfuel : ws.flatten.length < fuel) :
    Reader.read_to_end n fuel ((Writer.new { data := [], pos := 0 }).write_list ws).into_reader
        = ws.flatten ∧
      ((Writer.new { data := [], pos := 0 }).write_list ws).into_reader.into_writer
        = (Writer.new { data := [], pos := 0 }).write_list ws ∧
      ((Writer.new { data := [], pos := 0 }).write_list ws).into_reader.into_writer.finalize.inner.data
        = ws.flatten := by
  have h := Writer.content_write_list_new ws
  have hr := Writer.into_reader_proper _ h.1
  have hrt := Writer.into_reader_into_writer _ h.1
  refine ⟨?_, hrt, ?_⟩
  · rw [Reader.read_to_end_spec n hn fuel _ hr.1 (by rw [hr.2, h.2]; exact hfuel), hr.2, h.2]
  · rw [hrt, (Writer.good_finalize _ h.1).2.1, h.2]

theorem c5_round_trip_witness :
    Reader.read_to_end 2 10
        ((Writer.new { data := [], pos := 0 }).write_list [[1, 2], [3]]).into_reader
      = [[1, 2], [3]].flatten :=
  (c5_round_trip [[1, 2], [3]] 2 10 (by decide) (by decide)).1

theorem setInsert_mem (l : List KeyId) (k j : KeyId) :
    j ∈ setInsert l k ↔ j ∈ l ∨ j = k := by
  by_cases h : k ∈ l
  · simp only [setInsert, if_pos h]
    exact ⟨Or.inl, fun hj => hj.elim id (fun he => he ▸ h)⟩
  · simp [setInsert, h]

theorem Tree.verify_mem_sound (t : Tree) (sha256 : List Nat) :
    ∀ (ks : List PublicKey) (acc : List KeyId) (kid : KeyId),
      kid ∈ ks.foldl
        (fun confirms signing_key =>
          if (t.map signing_key.key_id).any
              (fun entry => entry.2.verify_sha256 sha256 signing_key)
          then setInsert confirms signing_key.key_id
          else confirms) acc →
      kid ∈ acc ∨ ∃ pk ∈ ks, pk.key_id = kid ∧
        ∃ entry ∈ t.map kid, entry.2.verify_sha256 sha256 pk = true := by
  intro ks
  induction ks with
  | nil => intro acc kid h; exact Or.inl h
  | cons pk ks ih =>
    intro acc kid h
    simp only [List.foldl_cons] at h
    rcases ih _ kid h with hacc | ⟨q, hq, hqe, he⟩
    · by_cases hcond : (t.map pk.key_id).any
          (fun entry => entry.2.verify_sha256 sha256 pk) = true
      · rw [if_pos hcond] at hacc
        rcases (setInsert_mem acc pk.key_id kid).mp hacc with hin | rfl
        · exact Or.inl hin
        · rcases List.any_eq_true.mp hcond with ⟨entry, hentry, hval⟩
          exact Or.inr ⟨pk, List.mem_cons_self pk ks, rfl, entry, hentry, hval⟩
      · rw [if_neg hcond] at hacc
        exact Or.inl hacc
    · exact Or.inr ⟨q, List.mem_cons_of_mem pk hq, hqe, he⟩

/-- **C3.** `AttestationTree::verify(h, keys)` never returns a key-id whose
public key did not sign an attestation carrying a SHA-256 product equal to
`h`: membership of a key-id in the result implies that some attestation
stored under it passes `verify_sha256` for one of the given keys with that
key-id — i.e. its (external) signature verification under that key succeeds
and one of its products records a SHA-256 digest equal to `h`. -/
theorem c3_verify_soundness (t : Tree) (h : List Nat) (keys : List PublicKey)
    (kid : KeyId) (hmem : kid ∈ t.verify h keys) :
    ∃ pk ∈ keys, pk.key_id = kid ∧
      ∃ entry ∈ t.map kid,
        entry.2.verify_sha256 h pk = true ∧
        entry.2.sig_ok pk = true ∧
        ∃ hashes ∈ entry.2.products, hashesSha256 hashes = some h := by
  rcases Tree.verify_mem_sound t h keys [] kid hmem with habs | ⟨pk, hpk, hpe, entry, hentry, hval⟩
  · simp at habs
  · refine ⟨pk, hpk, hpe, entry, hentry, hval, ?_, ?_⟩
    · have := hval
      simp only [Attestation.verify_sha256, Bool.and_eq_true] at this
      exact this.1.2
    · have := hval
      simp only [Attestation.verify_sha256, Bool.and_eq_true, List.any_eq_true] at this
      rcases this.2 with ⟨hashes, hhm, hmatch⟩
      refine ⟨hashes, hhm, ?_⟩
      rcases hsh : hashesSha256 hashes with _ | expected
      · rw [hsh] at hmatch; simp at hmatch
      · rw [hsh] at hmatch
        simp only [beq_iff_eq] at hmatch
        exact congrArg some hmatch

theorem groupGo_sublist (t : DomainTree) :
    ∀ (l : List KeyId) (voted : List Host), List.Sublist (groupGo t voted l) l := by
  intro l
  induction l with
  | nil => intro voted; simp [groupGo]
  | cons x rest ih =>
    intro voted
    cases hx : t.map x with
    | none =>
      simp only [groupGo, hx]
      exact (ih voted).trans (List.sublist_cons_self x rest)
    | some entry =>
      by_cases hv : entry.1 ∈ voted
      · simp only [groupGo, hx, if_pos hv]
        exact (ih voted).trans (List.sublist_cons_self x rest)
      · simp only [groupGo, hx, if_neg hv]
        exact (ih (entry.1 :: voted)).cons₂ x

theorem groupGo_mem_hostOf (t : DomainTree) :
    ∀ (l : List KeyId) (voted : List Host) (k : KeyId), k ∈ groupGo t voted l →
      ∃ h, t.hostOf k = some h ∧ h ∉ voted := by
  intro l
  induction l with
  | nil => intro voted k hk; simp [groupGo] at hk
  | cons x rest ih =>
    intro voted k hk
    cases hx : t.map x with
    | none =>
      simp only [groupGo, hx] at hk
      exact ih voted k hk
    | some entry =>
      by_cases hv : entry.1 ∈ voted
      · simp only [groupGo, hx, if_pos hv] at hk
        exact ih voted k hk
      · simp only [groupGo, hx, if_neg hv] at hk
        rcases List.mem_cons.mp hk with rfl | hk'
        · exact ⟨entry.1, by simp [DomainTree.hostOf, hx], hv⟩
        · obtain ⟨h, hh, hnv⟩ := ih (entry.1 :: voted) k hk'
          exact ⟨h, hh, fun hin => hnv (List.mem_cons_of_mem _ hin)⟩

theorem groupGo_hosts_nodup (t : DomainTree) :
    ∀ (l : List KeyId) (voted : List Host),
      ((groupGo t voted l).filterMap t.hostOf).Nodup ∧
        ∀ h ∈ (groupGo t voted l).filterMap t.hostOf, h ∉ voted := by
  intro l
  induction l with
  | nil => intro voted; simp [groupGo]
  | cons x rest ih =>
    intro voted
    cases hx : t.map x with
    | none => simpa only [groupGo, hx] using ih voted
    | some entry =>
      by_cases hv : entry.1 ∈ voted
      · simpa only [groupGo, hx, if_pos hv] using ih voted
      · have ihh := ih (entry.1 :: voted)
        have hx' : t.hostOf x = some entry.1 := by simp [DomainTree.hostOf, hx]
        simp only [groupGo, hx, if_neg hv, List.filterMap_cons, hx']
        constructor
        · rw [List.nodup_cons]
          exact ⟨fun hmem => (ihh.2 _ hmem) (List.mem_cons_self _ _), ihh.1⟩
        · intro h hmem
          rcases List.mem_cons.mp hmem with rfl | hmem'
          · exact hv
          · exact fun hvv => (ihh.2 _ hmem') (List.mem_cons_of_mem _ hvv)

theorem groupGo_first_wins (t : DomainTree) :
    ∀ (l : List KeyId) (voted : List Host), l.Sorted (· < ·) →
      ∀ k ∈ groupGo t voted l, ∀ q ∈ l, q < k → t.hostOf q ≠ t.hostOf k := by
  intro l
  induction l with
  | nil => intro voted _ k hk; simp [groupGo] at hk
  | cons x rest ih =>
    intro voted hsort k hk q hq hqk heq
    have hsort' : rest.Sorted (· < ·) := (List.sorted_cons.mp hsort).2
    have hlt : ∀ b ∈ rest, x < b := (List.sorted_cons.mp hsort).1
    obtain ⟨hk_host, hkh, hknv⟩ := groupGo_mem_hostOf t (x :: rest) voted k hk
    rcases List.mem_cons.mp hq with rfl | hq'
    · cases hx : t.map q with
      | none =>
        have hqh : t.hostOf q = none := by simp [DomainTree.hostOf, hx]
        rw [hqh, hkh] at heq
        exact Option.noConfusion heq
      | some entry =>
        have hqh : t.hostOf q = some entry.1 := by simp [DomainTree.hostOf, hx]
        have hent : entry.1 = hk_host := by
          rw [hqh, hkh] at heq
          exact Option.some.inj heq
        simp only [groupGo, hx] at hk
        by_cases hv : entry.1 ∈ voted
        · exact hknv (hent ▸ hv)
        · rw [if_neg hv] at hk
          rcases List.mem_cons.mp hk with rfl | hk'
          · exact lt_irrefl _ hqk
          · obtain ⟨h2, hh2, hnv2⟩ := groupGo_mem_hostOf t rest (entry.1 :: voted) k hk'
            rw [hkh] at hh2
            have : hk_host = h2 := Option.some.inj hh2
            exact hnv2 (by rw [← this, ← hent]; exact List.mem_cons_self _ _)
    · cases hx : t.map x with
      | none =>
        simp only [groupGo, hx] at hk
        exact ih voted hsort' k hk q hq' hqk heq
      | some entry =>
        simp only [groupGo, hx] at hk
        by_cases hv : entry.1 ∈ voted
        · rw [if_pos hv] at hk
          exact ih voted hsort' k hk q hq' hqk heq
        · rw [if_neg hv] at hk
          rcases List.mem_cons.mp hk with rfl | hk'
          · exact absurd hqk (not_lt.mpr (le_of_lt (hlt q hq')))
          · exact ih (entry.1 :: voted) hsort' k hk' q hq' hqk heq

theorem length_filterMap_of_isSome {α β : Type} (f : α → Option β) :
    ∀ l : List α, (∀ a ∈ l, (f a).isSome) → (l.filterMap f).length = l.length := by
  intro l
  induction l with
  | nil => intro _; simp
  | cons a l ih =>
    intro hall
    rcases hfa : f a with _ | b
    · have := hall a (List.mem_cons_self a l)
      rw [hfa] at this
      simp at this
    · rw [List.filterMap_cons_some hfa, List.length_cons, List.length_cons,
        ih (fun x hx => hall x (List.mem_cons_of_mem a hx))]

/-- **C4.** `DomainTree::group_by_domain(C)` returns a subset (in fact a
sublist) of `C` in which no two returned key-ids resolve to the same host, so
its size is at most the number of distinct hosts over `C`; the input is
iterated in sorted key-id order and a key-id is kept only when its host was
not claimed by an earlier (smaller) confirm resolving to the same host. -/
theorem c4_group_by_domain (t : DomainTree) (confirms : List KeyId)
    (hs : confirms.Sorted (· < ·)) :
    List.Sublist (t.group_by_domain confirms) confirms ∧
      ((t.group_by_domain confirms).filterMap t.hostOf).Nodup ∧
      (∀ k ∈ t.group_by_domain confirms, (t.hostOf k).isSome) ∧
      (t.group_by_domain confirms).length
        ≤ ((confirms.filterMap t.hostOf).dedup).length ∧
      ∀ k ∈ t.group_by_domain confirms, ∀ q ∈ confirms, q < k →
        t.hostOf q ≠ t.hostOf k := by
  have hsub := groupGo_sublist t confirms []
  have hnd := (groupGo_hosts_nodup t confirms []).1
  have hsome : ∀ k ∈ t.group_by_domain confirms, (t.hostOf k).isSome := by
    intro k hk
    obtain ⟨h, hh, -⟩ := groupGo_mem_hostOf t confirms [] k hk
    simp [hh]
  refine ⟨hsub, hnd, hsome, ?_, ?_⟩
  · have hlen := length_filterMap_of_isSome t.hostOf (t.group_by_domain confirms) hsome
    rw [← hlen]
    have hsubset : (t.group_by_domain confirms).filterMap t.hostOf
        ⊆ (confirms.filterMap t.hostOf).dedup := by
      intro h hh
      rw [List.mem_dedup]
      exact (hsub.filterMap t.hostOf).subset hh
    exact (hnd.subperm hsubset).length_le
  · exact groupGo_first_wins t confirms [] hs

theorem c4_group_by_domain_witness :
    List.Sublist (sampleDomainTree.group_by_domain [1, 2]) [1, 2] :=
  (c4_group_by_domain sampleDomainTree [1, 2] (by decide)).1

theorem groupGo_filter_isSome (t : DomainTree) :
    ∀ (l : List KeyId) (voted : List Host),
      groupGo t voted l = groupGo t voted (l.filter (fun j => (t.map j).isSome)) := by
  intro l
  induction l with
  | nil => intro voted; simp
  | cons x rest ih =>
    intro voted
    cases hx : t.map x with
    | none =>
      have hfil : (x :: rest).filter (fun j => (t.map j).isSome)
          = rest.filter (fun j => (t.map j).isSome) := by
        simp [List.filter_cons, hx]
      simp only [groupGo, hx, hfil]
      exact ih voted
    | some entry =>
      have hfil : (x :: rest).filter (fun j => (t.map j).isSome)
          = x :: rest.filter (fun j => (t.map j).isSome) := by
        simp [List.filter_cons, hx]
      rw [hfil]
      by_cases hv : entry.1 ∈ voted
      · simp only [groupGo, hx, if_pos hv]
        exact ih voted
      · simp only [groupGo, hx, if_neg hv]
        rw [ih (entry.1 :: voted)]

/-- **C10.** `group_by_domain` silently discards every key-id of its input
that has no entry in the domain map: such a key-id is never in the result
(even when its host slot is unclaimed — it has no host at all), and the whole
computation is unchanged by first deleting all unknown key-ids, i.e. unknown
keys contribute zero votes rather than passing through. -/
theorem c10_unknown_keys_discarded (t : DomainTree) (confirms : List KeyId)
    (k : KeyId) (hk : t.map k = none) :
    k ∉ t.group_by_domain confirms ∧
      t.group_by_domain confirms
        = t.group_by_domain (confirms.filter (fun j => (t.map j).isSome)) := by
  constructor
  · intro hmem
    obtain ⟨h, hh, -⟩ := groupGo_mem_hostOf t confirms [] k hmem
    rw [DomainTree.hostOf, hk] at hh
    simp at hh
  · exact groupGo_filter_isSome t confirms []

theorem c10_unknown_keys_discarded_witness :
    (2 : KeyId) ∉ sampleDomainTree.group_by_domain [1, 2] :=
  (c10_unknown_keys_discarded sampleDomainTree [1, 2] 2 (by rfl)).1

theorem c3_verify_soundness_witness :
    ∃ pk ∈ [sampleKey], pk.key_id = 1 ∧
      ∃ entry ∈ sampleTree.map 1,
        entry.2.verify_sha256 [5] pk = true ∧
        entry.2.sig_ok pk = true ∧
        ∃ hashes ∈ entry.2.products, hashesSha256 hashes = some [5] :=
  c3_verify_soundness sampleTree [5] [sampleKey] 1 (by decide)


theorem split_once_nl_no_nl : ∀ s : List Char,
    (∀ p, split_once_nl s = some p → ('\n' : Char) ∉ p.1) ∧
      (split_once_nl s = none → ('\n' : Char) ∉ s) := by
  intro s
  induction s with
  | nil =>
    constructor
    · intro p hp
      simp [split_once_nl] at hp
    · intro _
      simp
  | cons c rest ih =>
    by_cases hc : c = '\n'
    · subst hc
      have hsplit : split_once_nl ('\n' :: rest) = some ([], rest) := by
        simp [split_once_nl]
      constructor
      · intro p hp
        rw [hsplit] at hp
        have hp' := Option.some.inj hp
        rw [← hp']
        simp
      · intro hp
        rw [hsplit] at hp
        exact Option.noConfusion hp
    · cases hsp : split_once_nl rest with
      | some q =>
        constructor
        · intro p hp
          simp only [split_once_nl, if_neg hc, hsp, Option.some.injEq] at hp
          rw [← hp]
          intro hmem
          rcases List.mem_cons.mp hmem with h | h
          · exact hc h.symm
          · exact ih.1 q hsp h
        · intro hp
          simp [split_once_nl, if_neg hc, hsp] at hp
      | none =>
        constructor
        · intro p hp
          simp [split_once_nl, if_neg hc, hsp] at hp
        · intro _
          intro hmem
          rcases List.mem_cons.mp hmem with h | h
          · exact hc h.symm
          · exact ih.2 hsp h

theorem truncate_newline_no_nl (s : List Char) : ('\n' : Char) ∉ truncate_newline s := by
  unfold truncate_newline
  cases hsp : split_once_nl s with
  | none => exact (split_once_nl_no_nl s).2 hsp
  | some p => exact (split_once_nl_no_nl s).1 p hsp

theorem hexDigit_ne_nl : ∀ m, m < 16 → hexDigit m ≠ '\n' := by decide

theorem char48_ne_nl : ∀ m, m < 10 → Char.ofNat (48 + m) ≠ '\n' := by decide

theorem digitChar_ne_nl (n : Nat) : digitChar n ≠ '\n' :=
  char48_ne_nl (n % 10) (Nat.mod_lt _ (by omega))

theorem hexlower_no_nl (bytes : List Nat) : ('\n' : Char) ∉ hexlower bytes := by
  intro hmem
  simp only [hexlower, List.mem_flatMap] at hmem
  obtain ⟨b, -, hb⟩ := hmem
  have hm : b % 256 < 256 := Nat.mod_lt _ (by omega)
  have h1 : b % 256 / 16 < 16 := (Nat.div_lt_iff_lt_mul (by omega)).mpr hm
  have h2 : b % 16 < 16 := Nat.mod_lt _ (by omega)
  rcases List.mem_cons.mp hb with h | h
  · exact hexDigit_ne_nl _ h1 h.symm
  · rcases List.mem_cons.mp h with h' | h'
    · exact hexDigit_ne_nl _ h2 h'.symm
    · simp at h'

theorem natChars_no_nl (n : Nat) : ('\n' : Char) ∉ natChars n := by
  induction n using Nat.strong_induction_on with
  | _ n ih =>
    rw [natChars]
    split
    · intro hmem
      exact digitChar_ne_nl n (List.mem_singleton.mp hmem).symm
    · intro hmem
      rcases List.mem_append.mp hmem with hmem | hmem
      · exact ih (n / 10) (Nat.div_lt_self (by omega) (by omega)) hmem
      · exact digitChar_ne_nl _ (List.mem_singleton.mp hmem).symm

theorem not_mem_append_of {α : Type} {a : α} {l1 l2 : List α} (h1 : a ∉ l1) (h2 : a ∉ l2) :
    a ∉ l1 ++ l2 := by
  intro h
  rcases List.mem_append.mp h with h | h
  · exact h1 h
  · exact h2 h

/-- **C7.** No line emitted by the APT protocol speaker (`102 Status`,
`200 URI Start`, `201 URI Done`, `400 URI Failure`) contains an embedded
newline, for arbitrary reflected header values: every reflected value passes
through `truncate_newline` before being written, and the computed fields
(hex digest, decimal size) cannot produce a newline. -/
theorem c7_newline_safety (uriOpt : Option (List Char)) (uri message filename : List Char)
    (lm : Option (List Char)) (sha : List Nat) (size : Nat) :
    (∀ l ∈ uri_failure uriOpt message, ('\n' : Char) ∉ l) ∧
      (∀ l ∈ send_status uri message, ('\n' : Char) ∉ l) ∧
      (∀ l ∈ uri_start uri lm, ('\n' : Char) ∉ l) ∧
      (∀ l ∈ uri_done sha lm size filename uri, ('\n' : Char) ∉ l) := by
  have hlit1 : ('\n' : Char) ∉ "400 URI Failure".toList := by decide
  have hlit2 : ('\n' : Char) ∉ "Message: ".toList := by decide
  have hlit3 : ('\n' : Char) ∉ "URI: ".toList := by decide
  have hlit4 : ('\n' : Char) ∉ "102 Status".toList := by decide
  have hlit5 : ('\n' : Char) ∉ "200 URI Start".toList := by decide
  have hlit6 : ('\n' : Char) ∉ "Last-Modified: ".toList := by decide
  have hlit7 : ('\n' : Char) ∉ "201 URI Done".toList := by decide
  have hlit8 : ('\n' : Char) ∉ "SHA256-Hash: ".toList := by decide
  have hlit9 : ('\n' : Char) ∉ "Size: ".toList := by decide
  have hlit10 : ('\n' : Char) ∉ "Filename: ".toList := by decide
  refine ⟨?_, ?_, ?_, ?_⟩
  · intro l hl
    rcases uriOpt with _ | u <;> simp only [uri_failure] at hl <;>
      simp only [List.cons_append, List.nil_append, List.mem_cons,
        List.not_mem_nil, or_false] at hl
    · rcases hl with rfl | rfl | rfl
      · exact hlit1
      · exact not_mem_append_of hlit2 (truncate_newline_no_nl message)
      · simp
    · rcases hl with rfl | rfl | rfl | rfl
      · exact hlit1
      · exact not_mem_append_of hlit2 (truncate_newline_no_nl message)
      · exact not_mem_append_of hlit3 (truncate_newline_no_nl u)
      · simp
  · intro l hl
    simp only [send_status, List.mem_cons, List.not_mem_nil, or_false] at hl
    rcases hl with rfl | rfl | rfl | rfl
    · exact hlit4
    · exact not_mem_append_of hlit2 (truncate_newline_no_nl message)
    · exact not_mem_append_of hlit3 (truncate_newline_no_nl uri)
    · simp
  · intro l hl
    rcases lm with _ | v <;> simp only [uri_start] at hl <;>
      simp only [List.cons_append, List.nil_append, List.mem_cons,
        List.not_mem_nil, or_false] at hl
    · rcases hl with rfl | rfl | rfl
      · exact hlit5
      · exact not_mem_append_of hlit3 (truncate_newline_no_nl uri)
      · simp
    · rcases hl with rfl | rfl | rfl | rfl
      · exact hlit5
      · exact not_mem_append_of hlit6 (truncate_newline_no_nl v)
      · exact not_mem_append_of hlit3 (truncate_newline_no_nl uri)
      · simp
  · intro l hl
    rcases lm with _ | v <;> simp only [uri_done] at hl <;>
      simp only [List.cons_append, List.nil_append, List.mem_cons,
        List.not_mem_nil, or_false] at hl
    · rcases hl with rfl | rfl | rfl | rfl | rfl | rfl
      · exact hlit7
      · exact not_mem_append_of hlit8 (hexlower_no_nl sha)
      · exact not_mem_append_of hlit9 (natChars_no_nl size)
      · exact not_mem_append_of hlit10 (truncate_newline_no_nl filename)
      · exact not_mem_append_of hlit3 (truncate_newline_no_nl uri)
      · simp
    · rcases hl with rfl | rfl | rfl | rfl | rfl | rfl | rfl
      · exact hlit7
      · exact not_mem_append_of hlit8 (hexlower_no_nl sha)
      · exact not_mem_append_of hlit6 (truncate_newline_no_nl v)
      · exact not_mem_append_of hlit9 (natChars_no_nl size)
      · exact not_mem_append_of hlit10 (truncate_newline_no_nl filename)
      · exact not_mem_append_of hlit3 (truncate_newline_no_nl uri)
      · simp

theorem c7_newline_safety_witness :
    ('\n' : Char) ∉ "400 URI Failure".toList :=
  (c7_newline_safety none [] [] [] none [] 0).1 "400 URI Failure".toList (by decide)

/-- **C8.** An inbound message whose status line starts with no supported code
draws a `400 URI Failure` whose `Message` is `Unsupported command: ` followed
by the status line, with no `URI` header, and the loop continues with the next
request; a message starting with `601 ` (Configuration) is accepted and
ignored without any reply. -/
theorem c8_unsupported_command (acq : Request → List (List Char)) (req : Request)
    (rest : List Request) :
    (("600 ".toList.isPrefixOf req.status) = false →
      ("601 ".toList.isPrefixOf req.status) = false →
        handle acq req
            = ["400 URI Failure".toList,
               "Message: ".toList
                 ++ truncate_newline ("Unsupported command: ".toList ++ req.status),
               []] ∧
          ∀ l ∈ handle acq req, ("URI: ".toList.isPrefixOf l) = false) ∧
      (("600 ".toList.isPrefixOf req.status) = false →
        ("601 ".toList.isPrefixOf req.status) = true → handle acq req = []) ∧
      run_loop acq (req :: rest) = handle acq req ++ run_loop acq rest := by
  refine ⟨?_, ?_, rfl⟩
  · intro h600 h601
    have h600' : ¬ (("600 ".toList.isPrefixOf req.status) = true) := by
      rw [h600]
      exact Bool.false_ne_true
    have h601' : ¬ (("601 ".toList.isPrefixOf req.status) = true) := by
      rw [h601]
      exact Bool.false_ne_true
    have heq : handle acq req
        = uri_failure none ("Unsupported command: ".toList ++ req.status) := by
      unfold handle
      rw [if_neg h600', if_neg h601']
    constructor
    · rw [heq]
      simp [uri_failure]
    · intro l hl
      rw [heq] at hl
      simp only [uri_failure, List.cons_append, List.nil_append, List.mem_cons,
        List.not_mem_nil, or_false] at hl
      rcases hl with rfl | rfl | rfl
      · rfl
      · rfl
      · rfl
  · intro h600 h601
    have h600' : ¬ (("600 ".toList.isPrefixOf req.status) = true) := by
      rw [h600]
      exact Bool.false_ne_true
    unfold handle
    rw [if_neg h600', if_pos h601]

theorem c8_unsupported_command_witness :
    handle (fun _ => []) { status := "602 Whatever".toList, headers := [] }
      = ["400 URI Failure".toList,
         "Message: ".toList
           ++ truncate_newline ("Unsupported command: ".toList ++ "602 Whatever".toList),
         []] :=
  ((c8_unsupported_command (fun _ => [])
      { status := "602 Whatever".toList, headers := [] } []).1
    (by decide) (by decide)).1

/-- **C9 counterexample.** Invoked with an argv[0] whose basename begins with
`reproduced+` *and* a parsed `plumbing` subcommand, `main` dispatches to the
plumbing command, not to the APT transport — the remaining command-line
arguments do matter, refuting the claim as stated. -/
theorem c9_counterexample :
    is_apt_transport_multicall (some "/usr/lib/apt/methods/reproduced+https".toList) = true ∧
      mainDispatch (some "/usr/lib/apt/methods/reproduced+https".toList)
          (some SubCommand.plumbing) ≠ Dispatch.aptTransport := by
  constructor
  · decide
  · decide

/-- **C9 (amended).** Whenever argv[0]'s basename begins with `reproduced+`
*and no subcommand was parsed from the remaining arguments*, the program
dispatches to the APT transport. -/
theorem c9_multicall_dispatch (argv0 : Option (List Char))
    (h : is_apt_transport_multicall argv0 = true) :
    mainDispatch argv0 none = Dispatch.aptTransport := by
  simp [mainDispatch, h]

theorem c9_multicall_dispatch_witness :
    mainDispatch (some "reproduced+https".toList) none = Dispatch.aptTransport :=
  c9_multicall_dispatch (some "reproduced+https".toList) (by decide)

/-- **C1 (code bug).** The transport's `acquire` does *not* verify against the
caller-supplied trusted keys, nor group by domain: `signing_keys` is the empty
vector (a `TODO` in the source), so at `required_threshold = 1` an acquire
whose body hash `[5]` is attested by the trusted key 1 (as `sampleTree`
stores) still aborts with a failure, while the spec-mandated computation —
`verify` against the trusted keys, then `group_by_domain`, then the threshold
comparison — commits. -/
theorem c1_threshold_verification_code_bug :
    acquire_verify_commit { required_threshold := 1 }
        { status := "600 URI Acquire".toList, headers := [] } sampleTree
        (Writer.new { data := [], pos := 0 }) [5] = none ∧
      (spec_verify_commit { required_threshold := 1 } sampleDomainTree [sampleKey]
          { status := "600 URI Acquire".toList, headers := [] } sampleTree
          (Writer.new { data := [], pos := 0 }) [5]).isSome = true ∧
      (sampleDomainTree.group_by_domain
          (sampleTree.verify [5] [sampleKey])).length = 1 := by
  refine ⟨rfl, rfl, rfl⟩

end ReproThreshold
